import Mathlib

/-!
Verification of the `kache` result cache (src/kache/__init__.py).

The module decorates a function so that identical calls are cached.  We give a
shallow embedding of the decorated call:

* parameter values are modelled as integers (`Val`), result values likewise;
* a resolved parameter mapping (`bound.arguments` after `apply_defaults`) is a
  list of `(name, value)` pairs in signature order (`Params`);
* the backend mapping (`mem_cache` dict or the `shelve` store contents) is an
  association list; `shelve.open`/`close` are recorded as events;
* a Python exception is modelled as `Option.none` in the raising function and
  as an error result of the call.
-/

abbrev Val := Int

abbrev Params := List (String × Val)

/-- Errors of the call, following the error taxonomy of the design. -/
inductive KErr
  | keyDerivation
  | computation
  | missingEntry
  deriving DecidableEq, Repr

/-- Backend lifecycle events recorded during a call. -/
inductive Ev
  | openEv
  | closeEv
  deriving DecidableEq, Repr

/-- Outcome of one decorated call. -/
inductive CallResult
  | ok (v : Val)
  | err (e : KErr)
  deriving DecidableEq, Repr

/-- Dictionary lookup `d[k]` returning `none` when the key is absent. -/
def lookupKey : List (String × Val) → String → Option Val
  | [], _ => none
  | (k, v) :: rest, key => if k = key then some v else lookupKey rest key

/-- Membership test `k in d` on the backend mapping. -/
def containsKey (st : List (String × Val)) (key : String) : Bool :=
  (lookupKey st key).isSome

/-- Dictionary assignment `d[k] = v`: overwrite in place or append. -/
def setKey : List (String × Val) → String → Val → List (String × Val)
  | [], key, v => [(key, v)]
  | (k, w) :: rest, key, v =>
      if k = key then (key, v) :: rest else (k, w) :: setKey rest key v

/-- Order used by the Python `sorted` on `(name, value)` tuples: lexicographic,
name first, value breaking ties. -/
def pairLe (p q : String × Val) : Prop :=
  p.1 < q.1 ∨ (p.1 = q.1 ∧ p.2 ≤ q.2)

instance : DecidableRel pairLe := fun p q => by
  unfold pairLe; infer_instance

instance : IsTotal (String × Val) pairLe where
  total p q := by
    rcases lt_trichotomy p.1 q.1 with h | h | h
    · exact Or.inl (Or.inl h)
    · rcases le_total p.2 q.2 with h2 | h2
      · exact Or.inl (Or.inr ⟨h, h2⟩)
      · exact Or.inr (Or.inr ⟨h.symm, h2⟩)
    · exact Or.inr (Or.inl h)

instance : IsTrans (String × Val) pairLe where
  trans p q r hpq hqr := by
    rcases hpq with h1 | ⟨e1, v1⟩
    · rcases hqr with h2 | ⟨e2, v2⟩
      · exact Or.inl (lt_trans h1 h2)
      · exact Or.inl (e2 ▸ h1)
    · rcases hqr with h2 | ⟨e2, v2⟩
      · exact Or.inl (e1 ▸ h2)
      · exact Or.inr ⟨e1.trans e2, le_trans v1 v2⟩

instance : IsAntisymm (String × Val) pairLe where
  antisymm p q hpq hqp := by
    rcases hpq with h1 | ⟨e1, v1⟩
    · rcases hqp with h2 | ⟨e2, v2⟩
      · exact absurd h2 (lt_asymm h1)
      · exact absurd h1 (e2 ▸ lt_irrefl q.1)
    · rcases hqp with h2 | ⟨e2, v2⟩
      · exact absurd h2 (e1 ▸ lt_irrefl p.1)
      · exact Prod.ext e1 (le_antisymm v1 v2)

/-- The Python `sorted(params.items())`. -/
def sortPairs (l : Params) : Params :=
  List.insertionSort pairLe l

/-- Python `str` of one `(name, value)` tuple, e.g. `(\x27a\x27, 1)`. -/
def pyStrPair (p : String × Val) : String :=
  "(\x27" ++ p.1 ++ "\x27, " ++ toString p.2 ++ ")"

/-- Python `str` of a list of tuples, e.g. `[(\x27a\x27, 1), (\x27b\x27, 2)]`. -/
def pyStrList (l : Params) : String :=
  "[" ++ String.intercalate ", " (l.map pyStrPair) ++ "]"

/-- The default hash of `cache`: `lambda params: str(sorted(params.items()))`.
It never raises on the modelled value domain, hence always `some`. -/
def defaultHash (params : Params) : Option String :=
  some (pyStrList (sortPairs params))

/-- Hash selection of `cache`: `if hash is None: hash = lambda params: ""`. -/
def resolveHash (h : Option (Params → Option String)) : Params → Option String :=
  match h with
  | none => fun _ => some ""
  | some f => f

/-- Key derivation: `orig_func.__name__ + "__" + hash(params)`. -/
def deriveKey (name hs : String) : String :=
  name ++ "__" ++ hs

/-- Mutable state closed over by the decorated function: the two counters of
`stats`, the `last_hash` entry of `info`, and the backend mapping (the
`mem_cache` dict, or the contents of the `shelve` database at `db`). -/
structure CacheState where
  cached : Nat
  computed : Nat
  last_hash : Option String
  store : List (String × Val)
  deriving DecidableEq, Repr

/-- Result, post state and backend lifecycle events of one call. -/
structure CallOut where
  result : CallResult
  state : CacheState
  events : List Ev
  deriving DecidableEq, Repr

/-- One call of the decorated function, after argument binding: the body of
`decorated` in src/kache/__init__.py.  `hashFn params = none` models the
configured hash raising; `comp params = none` models the wrapped computation
raising.  `persistent` is `db is not None`: it selects `shelve.open(db)` plus
the `close` in the `finally` block over the plain `mem_cache` dict. -/
def callCache (name : String) (hashFn : Params → Option String)
    (comp : Params → Option Val) (persistent : Bool)
    (s : CacheState) (params : Params) : CallOut :=
  match hashFn params with
  | none => ⟨CallResult.err KErr.keyDerivation, s, []⟩
  | some hs =>
    let key := deriveKey name hs
    let s1 := { s with last_hash := some key }
    let opened := if persistent then [Ev.openEv] else []
    let closed := if persistent then [Ev.closeEv] else []
    if containsKey s1.store key then
      let s2 := { s1 with cached := s1.cached + 1 }
      match lookupKey s2.store key with
      | some v => ⟨CallResult.ok v, s2, opened ++ closed⟩
      | none => ⟨CallResult.err KErr.missingEntry, s2, opened ++ closed⟩
    else
      let s2 := { s1 with computed := s1.computed + 1 }
      match comp params with
      | none => ⟨CallResult.err KErr.computation, s2, opened ++ closed⟩
      | some v =>
        let s3 := { s2 with store := setKey s2.store key v }
        match lookupKey s3.store key with
        | some w => ⟨CallResult.ok w, s3, opened ++ closed⟩
        | none => ⟨CallResult.err KErr.missingEntry, s3, opened ++ closed⟩

/-- A sequence of calls, threading the state, collecting the results. -/
def runCalls (name : String) (hashFn : Params → Option String)
    (comp : Params → Option Val) (persistent : Bool) :
    CacheState → List Params → CacheState × List CallResult
  | s, [] => (s, [])
  | s, p :: ps =>
    let o := callCache name hashFn comp persistent s p
    let rest := runCalls name hashFn comp persistent o.state ps
    (rest.1, o.result :: rest.2)

/-- Argument binding: `sig.bind(*args, **kwargs)` followed by
`apply_defaults`, for a signature of ordinary parameters given as names with
optional default values.  Positional arguments fill the leading parameters;
a keyword both given positionally and by name raises; remaining parameters
take their keyword argument or their default; a missing parameter, a surplus
positional argument or an unexpected keyword raises (`none`). -/
def bindArgs : List (String × Option Val) → List Val → List (String × Val) →
    Option Params
  | [], [], [] => some []
  | [], _ :: _, _ => none
  | [], [], _ :: _ => none
  | (nm, _) :: sigRest, p :: posRest, kw =>
    if containsKey kw nm then none
    else (bindArgs sigRest posRest kw).map (fun r => (nm, p) :: r)
  | (nm, dflt) :: sigRest, [], kw =>
    match lookupKey kw nm with
    | some v => (bindArgs sigRest [] (kw.filter (fun q => q.1 ≠ nm))).map
        (fun r => (nm, v) :: r)
    | none =>
      match dflt with
      | some d => (bindArgs sigRest [] kw).map (fun r => (nm, d) :: r)
      | none => none

/-- Initial closure state of `cache`: `stats = dict(cached=0, computed=0)`,
`info = dict()`, `mem_cache = dict()` (and an empty persistent store). -/
def initState : CacheState :=
  ⟨0, 0, none, []⟩

theorem lookupKey_setKey_self (st : List (String × Val)) (key : String) (v : Val) :
    lookupKey (setKey st key v) key = some v := by
  induction st with
  | nil => simp [setKey, lookupKey]
  | cons p rest ih =>
    obtain ⟨k, w⟩ := p
    by_cases h : k = key <;> simp [setKey, lookupKey, h, ih]

theorem callCache_hit (name : String) (hashFn : Params → Option String)
    (comp : Params → Option Val) (persistent : Bool) (s : CacheState)
    (params : Params) (hs : String) (v : Val)
    (hh : hashFn params = some hs)
    (hv : lookupKey s.store (deriveKey name hs) = some v) :
    callCache name hashFn comp persistent s params =
      ⟨CallResult.ok v,
        { s with
            cached := s.cached + 1
            last_hash := some (deriveKey name hs) },
        if persistent then [Ev.openEv, Ev.closeEv] else []⟩ := by
  have hcont : containsKey s.store (deriveKey name hs) = true := by
    simp [containsKey, hv]
  cases persistent <;> simp [callCache, hh, hcont, hv]

theorem callCache_miss (name : String) (hashFn : Params → Option String)
    (comp : Params → Option Val) (persistent : Bool) (s : CacheState)
    (params : Params) (hs : String) (v : Val)
    (hh : hashFn params = some hs)
    (hnew : containsKey s.store (deriveKey name hs) = false)
    (hc : comp params = some v) :
    callCache name hashFn comp persistent s params =
      ⟨CallResult.ok v,
        { s with
            computed := s.computed + 1
            last_hash := some (deriveKey name hs)
            store := setKey s.store (deriveKey name hs) v },
        if persistent then [Ev.openEv, Ev.closeEv] else []⟩ := by
  cases persistent <;>
    simp [callCache, hh, hnew, hc, lookupKey_setKey_self]

theorem callCache_miss_fail (name : String) (hashFn : Params → Option String)
    (comp : Params → Option Val) (persistent : Bool) (s : CacheState)
    (params : Params) (hs : String)
    (hh : hashFn params = some hs)
    (hnew : containsKey s.store (deriveKey name hs) = false)
    (hc : comp params = none) :
    callCache name hashFn comp persistent s params =
      ⟨CallResult.err KErr.computation,
        { s with
            computed := s.computed + 1
            last_hash := some (deriveKey name hs) },
        if persistent then [Ev.openEv, Ev.closeEv] else []⟩ := by
  cases persistent <;> simp [callCache, hh, hnew, hc]

/-- C1: for a side-effect-free computation, the first call with a new key
invokes the computation, returns its result and increments `computed` only;
an immediately repeated call with an equal parameter set returns an equal
result and increments `cached` only. -/
theorem kache_miss_then_hit (name : String) (hashFn : Params → Option String)
    (comp : Params → Option Val) (persistent : Bool) (s : CacheState)
    (params : Params) (hs : String) (v : Val)
    (hh : hashFn params = some hs)
    (hnew : containsKey s.store (deriveKey name hs) = false)
    (hc : comp params = some v) :
    (callCache name hashFn comp persistent s params).result = CallResult.ok v ∧
    (callCache name hashFn comp persistent s params).state.computed = s.computed + 1 ∧
    (callCache name hashFn comp persistent s params).state.cached = s.cached ∧
    (callCache name hashFn comp persistent
        (callCache name hashFn comp persistent s params).state params).result =
      (callCache name hashFn comp persistent s params).result ∧
    (callCache name hashFn comp persistent
        (callCache name hashFn comp persistent s params).state params).state.cached =
      (callCache name hashFn comp persistent s params).state.cached + 1 ∧
    (callCache name hashFn comp persistent
        (callCache name hashFn comp persistent s params).state params).state.computed =
      (callCache name hashFn comp persistent s params).state.computed := by
  have h1 := callCache_miss name hashFn comp persistent s params hs v hh hnew hc
  have hv2 : lookupKey (callCache name hashFn comp persistent s params).state.store
      (deriveKey name hs) = some v := by
    rw [h1]; exact lookupKey_setKey_self _ _ _
  have h2 := callCache_hit name hashFn comp persistent
    (callCache name hashFn comp persistent s params).state params hs v hh hv2
  rw [h2, h1]
  simp

theorem kache_miss_then_hit_witness :
    defaultHash [("a", 1)] = some "[(\x27a\x27, 1)]" ∧
    (callCache "f" defaultHash (fun _ => some 2) false initState [("a", 1)]).result =
      CallResult.ok 2 ∧
    (callCache "f" defaultHash (fun _ => some 2) false
        (callCache "f" defaultHash (fun _ => some 2) false initState [("a", 1)]).state
        [("a", 1)]).state.cached =
      (callCache "f" defaultHash (fun _ => some 2) false initState
          [("a", 1)]).state.cached + 1 :=
  have h := kache_miss_then_hit "f" defaultHash (fun _ => some 2) false initState
    [("a", 1)] "[(\x27a\x27, 1)]" 2 (by decide) (by decide) rfl
  ⟨by decide, h.1, h.2.2.2.2.1⟩

/-- C3: when the wrapped computation raises on a miss, the error propagates,
the opened backend handle is still closed, and the backend mapping is
unchanged (no entry is written for the key). -/
theorem kache_release_on_computation_failure (name : String)
    (hashFn : Params → Option String) (comp : Params → Option Val)
    (persistent : Bool) (s : CacheState) (params : Params) (hs : String)
    (hh : hashFn params = some hs)
    (hnew : containsKey s.store (deriveKey name hs) = false)
    (hc : comp params = none) :
    (callCache name hashFn comp persistent s params).result =
      CallResult.err KErr.computation ∧
    (callCache name hashFn comp persistent s params).state.store = s.store ∧
    (callCache name hashFn comp persistent s params).events =
      (if persistent then [Ev.openEv, Ev.closeEv] else []) := by
  rw [callCache_miss_fail name hashFn comp persistent s params hs hh hnew hc]
  simp

theorem kache_release_on_computation_failure_witness :
    (callCache "f" (fun _ => some "h") (fun _ => none) true initState
        [("a", 1)]).result = CallResult.err KErr.computation ∧
    (callCache "f" (fun _ => some "h") (fun _ => none) true initState
        [("a", 1)]).events = [Ev.openEv, Ev.closeEv] :=
  have h := kache_release_on_computation_failure "f" (fun _ => some "h")
    (fun _ => none) true initState [("a", 1)] "h" rfl (by decide) rfl
  ⟨h.1, h.2.2⟩

/-- C5: the final backend read of the get-or-compute protocol never hits the
missing-entry branch: on a hit the key was contained, on a successful miss it
was just written. -/
theorem kache_missing_entry_unreachable (name : String)
    (hashFn : Params → Option String) (comp : Params → Option Val)
    (persistent : Bool) (s : CacheState) (params : Params) :
    (callCache name hashFn comp persistent s params).result ≠
      CallResult.err KErr.missingEntry := by
  unfold callCache
  cases hh : hashFn params with
  | none => simp
  | some hs =>
    by_cases hcont : containsKey s.store (deriveKey name hs)
    · obtain ⟨v, hv⟩ := Option.isSome_iff_exists.mp hcont
      simp [hcont, hv]
    · cases hc : comp params with
      | none => simp [hcont, hc]
      | some v => simp [hcont, hc, lookupKey_setKey_self]

/-- C8: when the configured hash raises, the failure propagates and nothing
is mutated: stats, `last_hash` and the backend mapping are unchanged and the
backend is never opened. -/
theorem kache_hash_failure_no_mutation (name : String)
    (hashFn : Params → Option String) (comp : Params → Option Val)
    (persistent : Bool) (s : CacheState) (params : Params)
    (hh : hashFn params = none) :
    callCache name hashFn comp persistent s params =
      ⟨CallResult.err KErr.keyDerivation, s, []⟩ := by
  simp [callCache, hh]

theorem kache_hash_failure_no_mutation_witness :
    callCache "f" (fun _ => none) (fun _ => some 2) true initState [("a", 1)] =
      ⟨CallResult.err KErr.keyDerivation, initState, []⟩ :=
  kache_hash_failure_no_mutation "f" (fun _ => none) (fun _ => some 2) true
    initState [("a", 1)] rfl

/-- C10: a miss whose computation raises still increments `computed`, leaves
`cached` unchanged, and has already overwritten `last_hash` with the derived
key before the error propagates. -/
theorem kache_failed_computation_counted (name : String)
    (hashFn : Params → Option String) (comp : Params → Option Val)
    (persistent : Bool) (s : CacheState) (params : Params) (hs : String)
    (hh : hashFn params = some hs)
    (hnew : containsKey s.store (deriveKey name hs) = false)
    (hc : comp params = none) :
    (callCache name hashFn comp persistent s params).result =
      CallResult.err KErr.computation ∧
    (callCache name hashFn comp persistent s params).state.computed =
      s.computed + 1 ∧
    (callCache name hashFn comp persistent s params).state.cached = s.cached ∧
    (callCache name hashFn comp persistent s params).state.last_hash =
      some (deriveKey name hs) := by
  rw [callCache_miss_fail name hashFn comp persistent s params hs hh hnew hc]
  simp

theorem kache_failed_computation_counted_witness :
    (callCache "g" (fun _ => some "h") (fun _ => none) false initState
        [("a", 1)]).state.computed = initState.computed + 1 ∧
    (callCache "g" (fun _ => some "h") (fun _ => none) false initState
        [("a", 1)]).state.last_hash = some (deriveKey "g" "h") :=
  have h := kache_failed_computation_counted "g" (fun _ => some "h")
    (fun _ => none) false initState [("a", 1)] "h" rfl (by decide) rfl
  ⟨h.2.1, h.2.2.2⟩

theorem bindArgs_keys : ∀ (sig : List (String × Option Val)) (pos : List Val)
    (kw : List (String × Val)) (ps : Params),
    bindArgs sig pos kw = some ps → ps.map Prod.fst = sig.map Prod.fst
  | [], [], [], ps => by
    intro h
    simp only [bindArgs, Option.some.injEq] at h
    simp [← h]
  | [], _ :: _, kw, ps => by
    intro h
    simp [bindArgs] at h
  | [], [], _ :: _, ps => by
    intro h
    simp [bindArgs] at h
  | (nm, dflt) :: sigRest, p :: posRest, kw, ps => by
    intro h
    simp only [bindArgs] at h
    cases hk : containsKey kw nm with
    | true => simp [hk] at h
    | false =>
      rw [hk] at h
      simp only [Bool.false_eq_true, if_false] at h
      obtain ⟨r, hr, hps⟩ := Option.map_eq_some'.mp h
      subst hps
      simp [bindArgs_keys sigRest posRest kw r hr]
  | (nm, dflt) :: sigRest, [], kw, ps => by
    intro h
    simp only [bindArgs] at h
    cases hlk : lookupKey kw nm with
    | some v =>
      rw [hlk] at h
      obtain ⟨r, hr, hps⟩ := Option.map_eq_some'.mp h
      subst hps
      simp [bindArgs_keys sigRest [] _ r hr]
    | none =>
      rw [hlk] at h
      cases dflt with
      | some d =>
        obtain ⟨r, hr, hps⟩ := Option.map_eq_some'.mp h
        subst hps
        simp [bindArgs_keys sigRest [] kw r hr]
      | none => simp at h

theorem sortPairs_eq_of_perm {l₁ l₂ : Params} (h : List.Perm l₁ l₂) :
    sortPairs l₁ = sortPairs l₂ :=
  List.eq_of_perm_of_sorted
    ((List.perm_insertionSort pairLe l₁).trans
      (h.trans (List.perm_insertionSort pairLe l₂).symm))
    (List.sorted_insertionSort pairLe l₁)
    (List.sorted_insertionSort pairLe l₂)

/-- C2: two calls of one computation whose resolved parameter mappings are
equal as sets of (name, value) pairs obtain the same default-derived cache
key, regardless of call syntax (positional or keyword) and of the order in
which the parameters were supplied. -/
theorem kache_key_call_syntax_independent (name : String)
    (sig : List (String × Option Val)) (pos₁ pos₂ : List Val)
    (kw₁ kw₂ : List (String × Val)) (ps₁ ps₂ : Params)
    (hnd : (sig.map Prod.fst).Nodup)
    (h₁ : bindArgs sig pos₁ kw₁ = some ps₁)
    (h₂ : bindArgs sig pos₂ kw₂ = some ps₂)
    (hset : ∀ p, p ∈ ps₁ ↔ p ∈ ps₂) :
    Option.map (deriveKey name) (defaultHash ps₁) =
      Option.map (deriveKey name) (defaultHash ps₂) := by
  have e₁ := bindArgs_keys sig pos₁ kw₁ ps₁ h₁
  have e₂ := bindArgs_keys sig pos₂ kw₂ ps₂ h₂
  have n₁ : ps₁.Nodup := by
    have : (ps₁.map Prod.fst).Nodup := by rw [e₁]; exact hnd
    exact this.of_map
  have n₂ : ps₂.Nodup := by
    have : (ps₂.map Prod.fst).Nodup := by rw [e₂]; exact hnd
    exact this.of_map
  have hperm : List.Perm ps₁ ps₂ := (List.perm_ext_iff_of_nodup n₁ n₂).mpr hset
  simp [defaultHash, sortPairs_eq_of_perm hperm]

theorem kache_key_call_syntax_independent_witness :
    bindArgs [("a", none), ("b", some 2)] [1, 5] [] = some [("a", 1), ("b", 5)] ∧
    bindArgs [("a", none), ("b", some 2)] [] [("b", 5), ("a", 1)] =
      some [("a", 1), ("b", 5)] ∧
    Option.map (deriveKey "f") (defaultHash [("a", 1), ("b", 5)]) =
      Option.map (deriveKey "f") (defaultHash [("a", 1), ("b", 5)]) :=
  ⟨by decide, by decide,
    kache_key_call_syntax_independent "f" [("a", none), ("b", some 2)] [1, 5] []
      [] [("b", 5), ("a", 1)] [("a", 1), ("b", 5)] [("a", 1), ("b", 5)]
      (by decide) (by decide) (by decide) (fun _ => Iff.rfl)⟩

/-- C4: a successful call returns exactly what re-reading the backend at the
derived key yields after the contains/compute/set step; on a miss the result
is `get(key)` evaluated after `set(key, result)`. -/
theorem kache_returns_reread_value (name : String)
    (hashFn : Params → Option String) (comp : Params → Option Val)
    (persistent : Bool) (s : CacheState) (params : Params) (hs : String)
    (hh : hashFn params = some hs) :
    (∀ v, (callCache name hashFn comp persistent s params).result = CallResult.ok v →
      lookupKey (callCache name hashFn comp persistent s params).state.store
        (deriveKey name hs) = some v) ∧
    (containsKey s.store (deriveKey name hs) = false →
      ∀ w, comp params = some w →
        (callCache name hashFn comp persistent s params).state.store =
          setKey s.store (deriveKey name hs) w ∧
        (callCache name hashFn comp persistent s params).result =
          (match lookupKey (setKey s.store (deriveKey name hs) w)
              (deriveKey name hs) with
            | some u => CallResult.ok u
            | none => CallResult.err KErr.missingEntry)) := by
  constructor
  · intro v hres
    by_cases hcont : containsKey s.store (deriveKey name hs)
    · obtain ⟨w, hw⟩ := Option.isSome_iff_exists.mp hcont
      rw [callCache_hit name hashFn comp persistent s params hs w hh hw] at hres ⊢
      simp only [CallResult.ok.injEq] at hres
      simpa [← hres] using hw
    · have hcf : containsKey s.store (deriveKey name hs) = false := by
        simpa using hcont
      cases hc : comp params with
      | none =>
        rw [callCache_miss_fail name hashFn comp persistent s params hs hh hcf hc]
          at hres
        simp at hres
      | some w =>
        rw [callCache_miss name hashFn comp persistent s params hs w hh hcf hc]
          at hres ⊢
        simp only [CallResult.ok.injEq] at hres
        simp [← hres, lookupKey_setKey_self]
  · intro hcf w hc
    rw [callCache_miss name hashFn comp persistent s params hs w hh hcf hc]
    simp [lookupKey_setKey_self]

theorem kache_returns_reread_value_witness :
    (callCache "f" (fun _ => some "h") (fun _ => some 7) false initState
        [("a", 1)]).state.store = setKey initState.store (deriveKey "f" "h") 7 ∧
    (callCache "f" (fun _ => some "h") (fun _ => some 7) false initState
        [("a", 1)]).result =
      (match lookupKey (setKey initState.store (deriveKey "f" "h") 7)
          (deriveKey "f" "h") with
        | some u => CallResult.ok u
        | none => CallResult.err KErr.missingEntry) :=
  (kache_returns_reread_value "f" (fun _ => some "h") (fun _ => some 7) false
      initState [("a", 1)] "h" rfl).2 (by decide) 7 rfl

/-- C6 as stated fails on the code: a call whose key derivation raises
increments neither counter, so the counters are not incremented exactly once
on every call. -/
theorem kache_stats_once_counterexample :
    ¬ ((callCache "f" (fun _ => none) (fun _ => some 0) false initState
          [("a", 1)]).state.cached +
        (callCache "f" (fun _ => none) (fun _ => some 0) false initState
          [("a", 1)]).state.computed =
      initState.cached + initState.computed + 1) := by
  decide

/-- C6 (amended): every call whose key derivation succeeds increments exactly
one of the two stats counters by 1 (each is non-decreasing) and overwrites
`last_hash` with the newly derived key. -/
theorem kache_stats_once (name : String) (hashFn : Params → Option String)
    (comp : Params → Option Val) (persistent : Bool) (s : CacheState)
    (params : Params) (hs : String)
    (hh : hashFn params = some hs) :
    (((callCache name hashFn comp persistent s params).state.cached =
          s.cached + 1 ∧
        (callCache name hashFn comp persistent s params).state.computed =
          s.computed) ∨
      ((callCache name hashFn comp persistent s params).state.cached =
          s.cached ∧
        (callCache name hashFn comp persistent s params).state.computed =
          s.computed + 1)) ∧
    (callCache name hashFn comp persistent s params).state.last_hash =
      some (deriveKey name hs) := by
  by_cases hcont : containsKey s.store (deriveKey name hs)
  · obtain ⟨w, hw⟩ := Option.isSome_iff_exists.mp hcont
    rw [callCache_hit name hashFn comp persistent s params hs w hh hw]
    simp
  · have hcf : containsKey s.store (deriveKey name hs) = false := by
      simpa using hcont
    cases hc : comp params with
    | none =>
      rw [callCache_miss_fail name hashFn comp persistent s params hs hh hcf hc]
      simp
    | some w =>
      rw [callCache_miss name hashFn comp persistent s params hs w hh hcf hc]
      simp

theorem kache_stats_once_witness :
    ((callCache "f" (fun _ => some "h") (fun _ => some 2) false initState
          [("a", 1)]).state.cached = initState.cached + 1 ∧
      (callCache "f" (fun _ => some "h") (fun _ => some 2) false initState
          [("a", 1)]).state.computed = initState.computed) ∨
    ((callCache "f" (fun _ => some "h") (fun _ => some 2) false initState
          [("a", 1)]).state.cached = initState.cached ∧
      (callCache "f" (fun _ => some "h") (fun _ => some 2) false initState
          [("a", 1)]).state.computed = initState.computed + 1) :=
  (kache_stats_once "f" (fun _ => some "h") (fun _ => some 2) false initState
    [("a", 1)] "h" rfl).1

/-- C7: two distinct computation names never collide on a key: the key is the
name, the separator, then the hash of the parameters, so equal keys force
equal names. -/
theorem kache_namespacing (f g hs : String) (hne : f ≠ g) :
    deriveKey f hs ≠ deriveKey g hs := by
  intro h
  apply hne
  apply String.ext
  have hd : f.data ++ ("__".data ++ hs.data) = g.data ++ ("__".data ++ hs.data) := by
    have hc := congrArg String.data h
    simpa [deriveKey, String.data_append, List.append_assoc] using hc
  exact List.append_cancel_right hd

theorem kache_namespacing_witness :
    ("f" : String) ≠ "g" ∧ deriveKey "f" "h" ≠ deriveKey "g" "h" :=
  ⟨by decide, kache_namespacing "f" "g" "h" (by decide)⟩

theorem runCalls_hits (name : String) (comp : Params → Option Val)
    (persistent : Bool) (v : Val) :
    ∀ (ps : List Params) (s : CacheState),
      lookupKey s.store (deriveKey name "") = some v →
      (runCalls name (resolveHash none) comp persistent s ps).2 =
          ps.map (fun _ => CallResult.ok v) ∧
      (runCalls name (resolveHash none) comp persistent s ps).1.cached =
          s.cached + ps.length ∧
      (runCalls name (resolveHash none) comp persistent s ps).1.computed =
          s.computed ∧
      (runCalls name (resolveHash none) comp persistent s ps).1.store = s.store
  | [], s, hv => by simp [runCalls]
  | p :: ps, s, hv => by
    have hcall := callCache_hit name (resolveHash none) comp persistent s p "" v
      rfl hv
    obtain ⟨ihr, ihc, ihm, ihs⟩ := runCalls_hits name comp persistent v ps
      { s with
          cached := s.cached + 1
          last_hash := some (deriveKey name "") } hv
    simp only [runCalls, hcall] at *
    refine ⟨by simp [ihr], ?_, by simpa using ihm, by simpa using ihs⟩
    rw [ihc]
    simp
    omega

/-- C9: with the degenerate hash (configured hash `None`), every call derives
the same key, so after a first successful call every subsequent call with any
parameter set is a hit returning the first computed result, and only `cached`
keeps growing. -/
theorem kache_degenerate_hash_single_entry (name : String)
    (comp : Params → Option Val) (persistent : Bool) (s : CacheState)
    (params₀ : Params) (rest : List Params) (v : Val)
    (hnew : containsKey s.store (deriveKey name "") = false)
    (hc : comp params₀ = some v) :
    (runCalls name (resolveHash none) comp persistent s (params₀ :: rest)).2 =
      CallResult.ok v :: rest.map (fun _ => CallResult.ok v) ∧
    (runCalls name (resolveHash none) comp persistent s
        (params₀ :: rest)).1.computed = s.computed + 1 ∧
    (runCalls name (resolveHash none) comp persistent s
        (params₀ :: rest)).1.cached = s.cached + rest.length := by
  have hcall := callCache_miss name (resolveHash none) comp persistent s params₀
    "" v rfl hnew hc
  obtain ⟨ihr, ihc, ihm, _⟩ := runCalls_hits name comp persistent v rest
    { s with
        computed := s.computed + 1
        last_hash := some (deriveKey name "")
        store := setKey s.store (deriveKey name "") v }
    (lookupKey_setKey_self _ _ _)
  simp only [runCalls, hcall]
  exact ⟨by simp [ihr], by simpa using ihm, by simpa using ihc⟩

theorem kache_degenerate_hash_single_entry_witness :
    (runCalls "f" (resolveHash none) (fun _ => some 5) false initState
        [[("a", 1)], [("a", 2)], [("b", 3)]]).2 =
      [CallResult.ok 5, CallResult.ok 5, CallResult.ok 5] ∧
    (runCalls "f" (resolveHash none) (fun _ => some 5) false initState
        [[("a", 1)], [("a", 2)], [("b", 3)]]).1.cached = initState.cached + 2 :=
  have h := kache_degenerate_hash_single_entry "f" (fun _ => some 5) false
    initState [("a", 1)] [[("a", 2)], [("b", 3)]] 5 (by decide) rfl
  ⟨h.1, h.2.2⟩
